import Mathlib

/-!
Verification of the InstaPRO content knowledge store and recommendation
extractor, shallowly embedded from src/Database.py and src/app.py.

The ChromaDB collection is modelled as an insertion-ordered list of stored
records plus a fresh-id counter (uuid4 ids are modelled as consecutive
naturals); the sentence-transformer embedding model is an explicit function
parameter. json.dumps/json.loads on lists of strings are modelled by an
executable encoder/decoder pair proved to round-trip. Python float division
is modelled with Rat; Python stable sorts (list.sort/sorted with a key and
reverse=True) are modelled by an executable stable insertion sort.
-/

/-- A post as handed to RAGDatabase.add_post (the post_data dict built by the
CLI commands in src/app.py). -/
structure Post where
  caption : String
  type : String
  engagement : Int
  hashtags : List String
  date_posted : String
  deriving DecidableEq

/-- Escaping of one character inside a JSON string literal: the quote and the
backslash are escaped, every other character is kept as is. -/
def escapeChar (c : Char) : List Char :=
  if c = '"' ∨ c = '\\' then ['\\', c] else [c]

/-- Escaping of a whole string body. -/
def escapeChars (cs : List Char) : List Char := cs.flatMap escapeChar

/-- One JSON string literal, quotes included. -/
def encodeItem (s : String) : List Char := '"' :: (escapeChars s.data ++ ['"'])

/-- The items of a JSON array of strings, separated as json.dumps prints them. -/
def encodeItems : List String → List Char
  | [] => []
  | s :: rest =>
    match rest with
    | [] => encodeItem s
    | _ :: _ => encodeItem s ++ ',' :: ' ' :: encodeItems rest

/-- Models json.dumps on a list of strings. -/
def jsonDumpsList (l : List String) : String :=
  match l with
  | [] => "[]"
  | _ :: _ => ⟨'[' :: (encodeItems l ++ [']'])⟩

/-- Parse the body of a JSON string literal after its opening quote: returns
the unescaped contents and the remaining input past the closing quote. -/
def parseStringBody : List Char → Option (List Char × List Char)
  | [] => none
  | c :: rest =>
    if c = '\\' then
      match rest with
      | [] => none
      | d :: rest2 => (parseStringBody rest2).map (fun p => (d :: p.1, p.2))
    else if c = '"' then
      some ([], rest)
    else
      (parseStringBody rest).map (fun p => (c :: p.1, p.2))

/-- Parse the items of a nonempty JSON array of strings up to and including
the closing bracket; fuelled to keep the recursion structural. -/
def parseItems (fuel : Nat) (cs : List Char) : Option (List String) :=
  match fuel with
  | 0 => none
  | fuel1 + 1 =>
    match cs with
    | '"' :: rest =>
      match parseStringBody rest with
      | none => none
      | some (item, after) =>
        match after with
        | [']'] => some [⟨item⟩]
        | ',' :: ' ' :: more => (parseItems fuel1 more).map (fun l => (⟨item⟩ : String) :: l)
        | _ => none
    | _ => none

/-- Models json.loads on the serialized hashtag field: succeeds exactly on a
JSON array of strings, failure models the exception. -/
def jsonLoadsList (s : String) : Option (List String) :=
  match s.data with
  | '[' :: rest => if rest = [']'] then some [] else parseItems rest.length rest
  | _ => none

/-- One record as held by the external vector index: id, embedding, document
text and the metadata dict written by add_post (hashtags JSON-serialized into
a single string field). -/
structure StoredRecord where
  id : Nat
  embedding : List Rat
  document : String
  meta_type : String
  meta_engagement : Int
  meta_hashtags : String
  meta_date : String
  deriving DecidableEq

/-- The RAGDatabase state: the ChromaDB collection as an insertion-ordered
record list, plus the counter supplying fresh ids. -/
structure RAGDatabase where
  nextId : Nat
  records : List StoredRecord
  deriving DecidableEq

/-- A freshly initialized store with no records. -/
def emptyDb : RAGDatabase := ⟨0, []⟩

/-- Models str.join with a single space, as in the embedding-text construction
of add_post. -/
def joinSpace : List String → String
  | [] => ""
  | s :: rest =>
    match rest with
    | [] => s
    | _ :: _ => s ++ " " ++ joinSpace rest

/-- Models RAGDatabase.add_post: builds the embedding text from caption and
hashtags, embeds it, assigns a fresh id and appends one record to the
collection. No validation is performed on the input. -/
def add_post (embed : String → List Rat) (db : RAGDatabase) (p : Post) : Nat × RAGDatabase :=
  let post_id := db.nextId
  let text_for_embedding := p.caption ++ " " ++ joinSpace p.hashtags
  let embedding := embed text_for_embedding
  (post_id,
    ⟨db.nextId + 1,
     db.records ++ [⟨post_id, embedding, p.caption, p.type, p.engagement,
       jsonDumpsList p.hashtags, p.date_posted⟩]⟩)

/-- A post as returned by RAGDatabase.get_all_posts: the stored fields read
back, with the hashtag field deserialized (none models a json.loads failure). -/
structure PostOut where
  id : Nat
  caption : String
  type : String
  engagement : Int
  hashtags : Option (List String)
  date_posted : String
  deriving DecidableEq

/-- Reading one stored record back into the dict shape of get_all_posts. -/
def recordToPost (r : StoredRecord) : PostOut :=
  ⟨r.id, r.document, r.meta_type, r.meta_engagement, jsonLoadsList r.meta_hashtags, r.meta_date⟩

/-- Models RAGDatabase.get_all_posts. -/
def get_all_posts (db : RAGDatabase) : List PostOut := db.records.map recordToPost

/-- Models RAGDatabase.get_post_count (collection.count()). -/
def get_post_count (db : RAGDatabase) : Nat := db.records.length

/-- Insert x into a list whose earlier elements it must follow whenever
keep y x holds: the insertion step of a stable sort. -/
def stableInsert {α : Type _} (keep : α → α → Bool) (x : α) : List α → List α
  | [] => [x]
  | y :: ys => if keep y x then y :: stableInsert keep x ys else x :: y :: ys

/-- The stable sort used to model Python list.sort/sorted with a key and
reverse=True: keep y x holds when the key of y is at least the key of x, so
equal keys retain their input order. -/
def stableSortDesc {α : Type _} (keep : α → α → Bool) (l : List α) : List α :=
  l.foldl (fun acc x => stableInsert keep x acc) []

/-- Lexicographic comparison of character lists by code point: the order
Python uses to compare strings. -/
def lexLt : List Char → List Char → Bool
  | _, [] => false
  | [], _ :: _ => true
  | a :: as, b :: bs =>
    if a.toNat < b.toNat then true
    else if b.toNat < a.toNat then false
    else lexLt as bs

/-- Sort policy of get_recent_posts: y may stay before x when its date string
is not lexicographically smaller (dates descending, ties in input order). -/
def dateKeep (y x : PostOut) : Bool := !(lexLt y.date_posted.data x.date_posted.data)

/-- Models RAGDatabase.get_recent_posts: all posts stably sorted by date_posted
descending, truncated to the limit. -/
def get_recent_posts (db : RAGDatabase) (limit : Nat) : List PostOut :=
  (stableSortDesc dateKeep (get_all_posts db)).take limit

/-- Models dict.get(key, 0) + 1 bookkeeping of the counting dicts in
get_content_analysis, keeping first-occurrence key order as Python dicts do. -/
def bumpCount (key : String) : List (String × Nat) → List (String × Nat)
  | [] => [(key, 1)]
  | (k, n) :: rest => if k = key then (k, n + 1) :: rest else (k, n) :: bumpCount key rest

/-- Models the engagement-list dicts of get_content_analysis: append v to the
list at key, creating a singleton entry for a new key. -/
def appendEng (key : String) (v : Int) : List (String × List Int) → List (String × List Int)
  | [] => [(key, [v])]
  | (k, vs) :: rest => if k = key then (k, vs ++ [v]) :: rest else (k, vs) :: appendEng key v rest

/-- The type_counts dict of get_content_analysis. -/
def type_counts (posts : List Post) : List (String × Nat) :=
  posts.foldl (fun acc p => bumpCount p.type acc) []

/-- The type_engagement dict of get_content_analysis. -/
def type_engagement (posts : List Post) : List (String × List Int) :=
  posts.foldl (fun acc p => appendEng p.type p.engagement acc) []

/-- The hashtag_counts dict of get_content_analysis (one bump per occurrence
of a hashtag on a post). -/
def hashtag_counts (posts : List Post) : List (String × Nat) :=
  posts.foldl (fun acc p => p.hashtags.foldl (fun a h => bumpCount h a) acc) []

/-- The hashtag_engagement dict of get_content_analysis (one appended
engagement value per occurrence of a hashtag on a post). -/
def hashtag_engagement (posts : List Post) : List (String × List Int) :=
  posts.foldl (fun acc p => p.hashtags.foldl (fun a h => appendEng h p.engagement a) acc) []

/-- Mean of a list of engagement values, float division modelled by Rat. -/
def meanEng (es : List Int) : Rat := (es.sum : Rat) / (es.length : Rat)

/-- The aggregate report returned by get_content_analysis; the two top-10
mappings keep the sorted association-list order of the Python dicts built
from sorted(...)[:10]. -/
structure Analysis where
  total_posts : Nat
  avg_engagement : Rat
  type_distribution : List (String × Nat)
  avg_engagement_by_type : List (String × Rat)
  top_hashtags : List (String × Nat)
  best_performing_hashtags : List (String × Rat)
  deriving DecidableEq

/-- Sort policy for sorted(items, key=count, reverse=True). -/
def natKeep (y x : String × Nat) : Bool := decide (x.2 ≤ y.2)

/-- Sort policy for sorted(items, key=mean engagement, reverse=True). -/
def ratKeep (y x : String × Rat) : Bool := decide (x.2 ≤ y.2)

/-- Models RAGDatabase.get_content_analysis on the post list read from the
store; none models the empty dict returned for an empty store. -/
def get_content_analysis (posts : List Post) : Option Analysis :=
  if posts = [] then none
  else
    let total_engagement : Int := posts.foldl (fun t p => t + p.engagement) 0
    some
      ⟨posts.length,
       if posts = [] then 0 else (total_engagement : Rat) / (posts.length : Rat),
       type_counts posts,
       (type_engagement posts).map (fun kv => (kv.1, meanEng kv.2)),
       (stableSortDesc natKeep (hashtag_counts posts)).take 10,
       (stableSortDesc ratKeep ((hashtag_engagement posts).filterMap
         (fun kv => if 2 ≤ kv.2.length then some (kv.1, meanEng kv.2) else none))).take 10⟩

/-- Every divisor of a division performed while computing
get_content_analysis posts, in order: the avg_engagement divisor, the
per-type mean divisors, and the per-hashtag mean divisors (only hashtags
passing the occurrence filter are divided). Empty input returns before any
division. -/
def analysisDivisors (posts : List Post) : List Nat :=
  if posts = [] then []
  else
    posts.length ::
      ((type_engagement posts).map (fun kv => kv.2.length) ++
       (hashtag_engagement posts).filterMap
         (fun kv => if 2 ≤ kv.2.length then some kv.2.length else none))

/-- The engagement value of each occurrence of a tag across the posts, in
order: one entry per time the tag is listed on a post, exactly as the source
loop over post hashtags appends them (a post listing the tag twice
contributes two entries). -/
def tagEngs (tag : String) (posts : List Post) : List Int :=
  posts.flatMap (fun p => List.replicate (p.hashtags.count tag) p.engagement)

/-- Result of the content-gap analysis: the no-recent-posts marker dict, or
the report with recent_content_mix, missing_content_types and overused_types. -/
inductive GapsResult where
  | noRecent : GapsResult
  | report : List (String × Nat) → List String → List String → GapsResult
  deriving DecidableEq

/-- The fixed full category set of _analyze_content_gaps. -/
def all_types : List String := ["satisfying_video", "promotion", "educational", "behind_scenes"]

/-- Models InstagramPostRecommender._analyze_content_gaps: counts categories
over the first seven records of the given list, lists the fixed categories
absent from that window and the categories occurring three or more times.
The iteration order of the Python set is modelled by first-occurrence order. -/
def analyze_content_gaps (recent_posts : List PostOut) : GapsResult :=
  if recent_posts = [] then GapsResult.noRecent
  else
    let recent_types := (recent_posts.take 7).map (fun p => p.type)
    GapsResult.report
      (recent_types.dedup.map (fun t => (t, recent_types.count t)))
      (all_types.filter (fun t => !(recent_types.contains t)))
      (recent_types.dedup.filter (fun t => 3 ≤ recent_types.count t))

/-- Split a character list at every dash, modelling str.split("-") for date
strings. -/
def splitDash : List Char → List (List Char)
  | [] => [[]]
  | c :: rest =>
    let r := splitDash rest
    if c = '-' then [] :: r
    else
      match r with
      | [] => [[c]]
      | g :: gs => (c :: g) :: gs

/-- The numeric value of a nonempty all-digit character list, none otherwise. -/
def digitsVal (cs : List Char) : Option Nat :=
  if cs = [] then none
  else
    cs.foldl
      (fun acc c => acc.bind (fun n => if c.isDigit then some (10 * n + (c.toNat - 48)) else none))
      (some 0)

/-- Day count of a Gregorian date (era-based days-from-civil computation),
modelling datetime date arithmetic for years from 1 on: differences of these
counts are differences in days. -/
def daysFromCivil (y m d : Nat) : Nat :=
  let yy := if m ≤ 2 then y - 1 else y
  let era := yy / 400
  let yoe := yy % 400
  let mp := (m + 9) % 12
  let doy := (153 * mp + 2) / 5 + d - 1
  let doe := yoe * 365 + yoe / 4 - yoe / 100 + doy
  era * 146097 + doe

/-- Models datetime.strptime(s, "%Y-%m-%d") reduced to a day count; none
models the ValueError on a malformed date string. -/
def parseDate (s : String) : Option Nat :=
  match splitDash s.data with
  | [ys, ms, ds] =>
    match digitsVal ys, digitsVal ms, digitsVal ds with
    | some y, some m, some d =>
      if 1 ≤ y ∧ 1 ≤ m ∧ m ≤ 12 ∧ 1 ≤ d ∧ d ≤ 31 then some (daysFromCivil y m d) else none
    | _, _, _ => none
  | _ => none

/-- Parse the date of every record, as the list comprehension over
recent_posts does; the first failure aborts the whole computation. -/
def parseDates : List PostOut → Option (List Nat)
  | [] => some []
  | p :: rest =>
    match parseDate p.date_posted, parseDates rest with
    | some d, some ds => some (d :: ds)
    | _, _ => none

/-- Result of the posting-rhythm analysis: the not-enough-posts marker dict,
or the report carrying days_since_last_post, the average gap and the overdue
flag of posting_status. -/
inductive RhythmResult where
  | insufficient : RhythmResult
  | report : Int → Rat → Bool → RhythmResult
  deriving DecidableEq

/-- Sort policy for dates.sort(reverse=True) on day counts. -/
def natDescKeep (y x : Nat) : Bool := decide (x ≤ y)

/-- Models InstagramPostRecommender._analyze_posting_rhythm, with
datetime.now() supplied as the day count today. Fewer than two records give
the insufficient marker; otherwise dates are sorted descending,
days_since_last is today minus the newest date, the average gap is the mean
of consecutive differences, and the status is overdue when days_since_last
exceeds 1.5 times the average gap. -/
def analyze_posting_rhythm (today : Int) (recent_posts : List PostOut) : Option RhythmResult :=
  if recent_posts.length < 2 then some RhythmResult.insufficient
  else
    match parseDates recent_posts with
    | none => none
    | some dates =>
      let sorted := stableSortDesc natDescKeep dates
      let days_since_last : Int := today - (sorted.headD 0 : Int)
      let gaps : List Int :=
        List.zipWith (fun (a b : Nat) => (a : Int) - (b : Int)) sorted sorted.tail
      let avg_gap : Rat := if gaps = [] then 0 else (gaps.sum : Rat) / (gaps.length : Rat)
      some (RhythmResult.report days_since_last avg_gap
        (decide ((days_since_last : Rat) > avg_gap * (3 / 2))))

/-- One message of the group-chat history: speaker name and content. -/
structure Msg where
  name : String
  content : String
  deriving DecidableEq

/-- The coordinator termination marker of _extract_recommendations. -/
def terminationMarker : String := "FINAL RECOMMENDATION:"

/-- The coordinator agent name. -/
def coordName : String := "content_coordinator"

/-- Whether pat begins the list s. -/
def isStart : List Char → List Char → Bool
  | [], _ => true
  | _ :: _, [] => false
  | a :: ps, b :: ss => a == b && isStart ps ss

/-- Whether pat occurs contiguously anywhere in the list, modelling the
Python in operator on strings. -/
def hasInfix (pat : List Char) : List Char → Bool
  | [] => pat.isEmpty
  | c :: rest => isStart pat (c :: rest) || hasInfix pat rest

/-- Models str.upper character by character. -/
def upperChars (cs : List Char) : List Char := cs.map Char.toUpper

/-- The marker test of the extractor: the uppercase marker is searched in the
uppercased content, so the match is case-insensitive. -/
def isTerminationMsg (content : String) : Bool :=
  hasInfix terminationMarker.data (upperChars content.data)

/-- Remove every non-overlapping occurrence of pat scanning left to right,
modelling str.replace(pat, "") with its exact, case-sensitive matching;
fuelled to keep the recursion structural. -/
def removeAllAux (pat : List Char) : Nat → List Char → List Char
  | 0, s => s
  | _ + 1, [] => []
  | fuel + 1, c :: rest =>
    if !pat.isEmpty && isStart pat (c :: rest) then
      removeAllAux pat fuel ((c :: rest).drop pat.length)
    else
      c :: removeAllAux pat fuel rest

/-- Models str.replace(pat, "") on character lists. -/
def removeAll (pat s : List Char) : List Char := removeAllAux pat s.length s

/-- Models str.strip(): leading and trailing whitespace dropped. -/
def stripChars (cs : List Char) : List Char :=
  ((cs.dropWhile Char.isWhitespace).reverse.dropWhile Char.isWhitespace).reverse

/-- Models str.strip() on strings. -/
def trimStr (s : String) : String := ⟨stripChars s.data⟩

/-- The reverse-scan loop of _extract_recommendations: the first message (of
the already reversed history) from the coordinator whose content contains the
marker case-insensitively; empty string when none is found. -/
def finalRecLoop : List Msg → String
  | [] => ""
  | m :: rest =>
    if m.name == coordName && isTerminationMsg m.content then m.content else finalRecLoop rest

/-- The final_recommendation value after the reverse scan of the history. -/
def final_recommendation (msgs : List Msg) : String := finalRecLoop msgs.reverse

/-- The COORDINATED STRATEGY text of the formatted output: the found
coordinator content with the exact uppercase marker removed and whitespace
stripped, or empty when no coordinator conclusion was found. -/
def coordinated_strategy (msgs : List Msg) : String :=
  let fr := final_recommendation msgs
  if fr = "" then "" else trimStr ⟨removeAll terminationMarker.data fr.data⟩

/-- The truncation applied to a specialist recommendation: contents longer
than 500 characters are cut to 500 with an ellipsis appended. -/
def truncRec (content : String) : String :=
  if 500 < content.length then (⟨content.data.take 500⟩ : String) ++ "..." else content

/-- The forward-scan loop of _extract_recommendations for one specialist:
each qualifying message (matching name, content strictly longer than 100)
overwrites the accumulator, so the last one wins; empty string when none
qualifies. -/
def specialistRec (agent : String) (msgs : List Msg) : String :=
  msgs.foldl
    (fun acc m => if m.name == agent && decide (100 < m.content.length) then truncRec m.content else acc)
    ""

/-- The STORY RECOMMENDATION text of the formatted output. -/
def story_rec (msgs : List Msg) : String := specialistRec "story_specialist" msgs

/-- The FEED POST RECOMMENDATION text of the formatted output. -/
def feed_rec (msgs : List Msg) : String := specialistRec "feed_specialist" msgs

/-- Lookup in the engagement association lists, empty list for a missing key. -/
def lookupEngs : List (String × List Int) → String → List Int
  | [], _ => []
  | (k, vs) :: rest, key => if k = key then vs else lookupEngs rest key

/-- The keys of an association list in order. -/
def keysList {β : Type _} (l : List (String × β)) : List String := l.map Prod.fst

/-- A trivial embedding function used for concrete examples. -/
def zeroEmbed : String → List Rat := fun _ => []

/-- A malformed ingestion input: empty caption and negative engagement. -/
def badPost : Post := ⟨"", "promotion", -5, [], "2024-01-01"⟩

/-- A well-formed ingestion input. -/
def wellFormedPost : Post := ⟨"hello world", "promotion", 42, ["#a", "#b"], "2024-03-01"⟩

/-- The store contents of the spec example for best-performing tags: one
record tagged #rare with engagement 9999 and two records tagged #common with
engagements 100 and 200. -/
def specExamplePosts : List Post :=
  [⟨"a", "t", 9999, ["#rare"], "2024-01-01"⟩,
   ⟨"b", "t", 100, ["#common"], "2024-01-02"⟩,
   ⟨"c", "t", 200, ["#common"], "2024-01-03"⟩]

/-- The analysis report of specExamplePosts, spelled out. -/
def specExampleAnalysis : Analysis :=
  ⟨3, 3433, [("t", 3)], [("t", 3433)], [("#common", 2), ("#rare", 1)], [("#common", 150)]⟩

/-- A single record listing the same tag twice. -/
def dupTagPosts : List Post := [⟨"p", "t", 9999, ["#rare", "#rare"], "2024-01-01"⟩]

/-- A store holding records dated 2024-01-01, 2024-01-05 and 2024-01-03, in
that insertion order. -/
def recentDb : RAGDatabase :=
  (add_post zeroEmbed
    ((add_post zeroEmbed
      ((add_post zeroEmbed emptyDb ⟨"first", "t", 1, [], "2024-01-01"⟩).2)
      ⟨"second", "t", 2, [], "2024-01-05"⟩).2)
    ⟨"third", "t", 3, [], "2024-01-03"⟩).2

/-- Records dated 2024-01-10 and 2024-01-05, as in the spec rhythm example. -/
def rhythmPosts : List PostOut :=
  [⟨0, "x", "t", 5, some [], "2024-01-10"⟩, ⟨1, "y", "t", 4, some [], "2024-01-05"⟩]

/-- Recent records with categories promotion, educational, promotion,
promotion, for the content-gap example. -/
def gapPosts : List PostOut :=
  [⟨0, "a", "promotion", 1, some [], "2024-01-01"⟩,
   ⟨1, "b", "educational", 1, some [], "2024-01-02"⟩,
   ⟨2, "c", "promotion", 1, some [], "2024-01-03"⟩,
   ⟨3, "d", "promotion", 1, some [], "2024-01-04"⟩]

/-- A coordinator message carrying the termination marker in lowercase only. -/
def lowercaseMarkerMsg : Msg := ⟨"content_coordinator", "final recommendation: post a reel"⟩

theorem parseStringBody_quote (r : List Char) : parseStringBody ('"' :: r) = some ([], r) := by
  rw [parseStringBody.eq_def]
  simp

theorem parseStringBody_escaped (c : Char) (rest : List Char) :
    parseStringBody ('\\' :: c :: rest) = (parseStringBody rest).map (fun p => (c :: p.1, p.2)) := by
  rw [parseStringBody.eq_def]
  simp

theorem parseStringBody_other (c : Char) (rest : List Char) (h1 : c ≠ '"') (h2 : c ≠ '\\') :
    parseStringBody (c :: rest) = (parseStringBody rest).map (fun p => (c :: p.1, p.2)) := by
  rw [parseStringBody.eq_def]
  simp [h1, h2]

theorem parseStringBody_escape (cs : List Char) (r : List Char) :
    parseStringBody (escapeChars cs ++ '"' :: r) = some (cs, r) := by
  induction cs with
  | nil =>
    have h : escapeChars [] ++ '"' :: r = '"' :: r := by simp [escapeChars]
    rw [h, parseStringBody_quote]
  | cons c cs ih =>
    by_cases h : c = '"' ∨ c = '\\'
    · have he : escapeChars (c :: cs) ++ '"' :: r = '\\' :: c :: (escapeChars cs ++ '"' :: r) := by
        rcases h with h | h <;> simp [escapeChars, escapeChar, h]
      rw [he, parseStringBody_escaped, ih]
      rfl
    · push_neg at h
      have he : escapeChars (c :: cs) ++ '"' :: r = c :: (escapeChars cs ++ '"' :: r) := by
        simp [escapeChars, escapeChar, h.1, h.2]
      rw [he, parseStringBody_other c _ h.1 h.2, ih]
      rfl

theorem encodeItems_length (l : List String) : l.length ≤ (encodeItems l).length := by
  induction l with
  | nil => simp [encodeItems]
  | cons s rest ih =>
    cases rest with
    | nil => simp [encodeItems, encodeItem]
    | cons s2 r2 =>
      simp only [encodeItems, encodeItem] at ih ⊢
      simp only [List.length_cons, List.length_append] at ih ⊢
      omega

theorem parseItems_encode :
    ∀ (l : List String) (fuel : Nat), l ≠ [] → l.length ≤ fuel →
      parseItems fuel (encodeItems l ++ [']']) = some l := by
  intro l
  induction l with
  | nil => intro fuel h; exact absurd rfl h
  | cons s rest ih =>
    intro fuel _ hf
    cases fuel with
    | zero => simp at hf
    | succ fuel1 =>
      cases rest with
      | nil =>
        have hl : encodeItems [s] ++ [']'] = '"' :: (escapeChars s.data ++ '"' :: [']']) := by
          simp [encodeItems, encodeItem]
        rw [hl]
        simp [parseItems, parseStringBody_escape]
      | cons s2 rest2 =>
        have hl : encodeItems (s :: s2 :: rest2) ++ [']']
            = '"' :: (escapeChars s.data ++ '"' ::
                (',' :: ' ' :: (encodeItems (s2 :: rest2) ++ [']']))) := by
          simp [encodeItems, encodeItem]
        have hlen : (s2 :: rest2).length ≤ fuel1 := by
          simp only [List.length_cons] at hf ⊢
          omega
        rw [hl]
        simp [parseItems, parseStringBody_escape, ih fuel1 (by simp) hlen]

theorem jsonLoadsList_dumps (l : List String) : jsonLoadsList (jsonDumpsList l) = some l := by
  cases l with
  | nil => rfl
  | cons s rest =>
    have hlen : 1 ≤ (encodeItems (s :: rest)).length := by
      have h := encodeItems_length (s :: rest)
      simp only [List.length_cons] at h
      omega
    have hne : ¬(encodeItems (s :: rest) ++ [']'] = [']']) := by
      intro h
      have h2 := congrArg List.length h
      simp only [List.length_append, List.length_cons, List.length_nil] at h2
      omega
    show (if encodeItems (s :: rest) ++ [']'] = [']'] then some []
        else parseItems (encodeItems (s :: rest) ++ [']']).length
          (encodeItems (s :: rest) ++ [']'])) = some (s :: rest)
    rw [if_neg hne]
    apply parseItems_encode (s :: rest) _ (by simp)
    simp only [List.length_append, List.length_cons, List.length_nil]
    have h := encodeItems_length (s :: rest)
    simp only [List.length_cons] at h
    omega

theorem lexLt_irrefl (cs : List Char) : lexLt cs cs = false := by
  induction cs with
  | nil => rfl
  | cons c rest ih => simp [lexLt, ih]

theorem lexLt_trans (a b c : List Char) (h1 : lexLt a b = true) (h2 : lexLt b c = true) :
    lexLt a c = true := by
  induction a generalizing b c with
  | nil =>
    cases b with
    | nil => simp [lexLt] at h1
    | cons b1 bs =>
      cases c with
      | nil => simp [lexLt] at h2
      | cons c1 cs => simp [lexLt]
  | cons a1 as ih =>
    cases b with
    | nil => simp [lexLt] at h1
    | cons b1 bs =>
      cases c with
      | nil => simp [lexLt] at h2
      | cons c1 cs =>
        simp only [lexLt] at h1 h2 ⊢
        by_cases hab : a1.toNat < b1.toNat
        · by_cases hbc : b1.toNat < c1.toNat
          · simp [Nat.lt_trans hab hbc]
          · by_cases hcb : c1.toNat < b1.toNat
            · simp [hbc, hcb] at h2
            · have hlt : a1.toNat < c1.toNat := by omega
              simp [hlt]
        · by_cases hba : b1.toNat < a1.toNat
          · simp [hab, hba] at h1
          · simp only [hab, hba, if_false] at h1
            by_cases hbc : b1.toNat < c1.toNat
            · have hlt : a1.toNat < c1.toNat := by omega
              simp [hlt]
            · by_cases hcb : c1.toNat < b1.toNat
              · simp [hbc, hcb] at h2
              · simp only [hbc, hcb, if_false] at h2
                have h3 : ¬ a1.toNat < c1.toNat := by omega
                have h4 : ¬ c1.toNat < a1.toNat := by omega
                simp only [h3, h4, if_false]
                exact ih bs cs h1 h2

theorem lexLt_split (a b c : List Char) (h : lexLt a c = true) :
    lexLt a b = true ∨ lexLt b c = true := by
  induction a generalizing b c with
  | nil =>
    cases c with
    | nil => simp [lexLt] at h
    | cons c1 cs =>
      cases b with
      | nil => right; simp [lexLt]
      | cons b1 bs => left; simp [lexLt]
  | cons a1 as ih =>
    cases c with
    | nil => simp [lexLt] at h
    | cons c1 cs =>
      cases b with
      | nil => right; simp [lexLt]
      | cons b1 bs =>
        simp only [lexLt] at h ⊢
        by_cases hab : a1.toNat < b1.toNat
        · left; simp [hab]
        · by_cases hbc : b1.toNat < c1.toNat
          · right; simp [hbc]
          · by_cases hac : a1.toNat < c1.toNat
            · exact absurd hac (by omega)
            · by_cases hca : c1.toNat < a1.toNat
              · simp [hac, hca] at h
              · simp only [hac, hca, if_false] at h
                have hba : ¬ b1.toNat < a1.toNat := by omega
                have hcb : ¬ c1.toNat < b1.toNat := by omega
                rcases ih bs cs h with h1 | h1
                · left; simp [hab, hba, h1]
                · right; simp [hbc, hcb, h1]

theorem lexLt_asymm (a b : List Char) (h : lexLt a b = true) : lexLt b a = false := by
  cases hba : lexLt b a with
  | false => rfl
  | true => exact absurd (lexLt_trans a b a h hba) (by simp [lexLt_irrefl])

theorem mem_stableInsert {α : Type _} (keep : α → α → Bool) (x a : α) (l : List α) :
    a ∈ stableInsert keep x l ↔ a = x ∨ a ∈ l := by
  induction l with
  | nil => simp [stableInsert]
  | cons y ys ih =>
    by_cases h : keep y x = true
    · simp only [stableInsert, h, if_true, List.mem_cons, ih]
      tauto
    · simp only [stableInsert, h, if_false, Bool.false_eq_true, List.mem_cons]

theorem length_stableInsert {α : Type _} (keep : α → α → Bool) (x : α) (l : List α) :
    (stableInsert keep x l).length = l.length + 1 := by
  induction l with
  | nil => rfl
  | cons y ys ih =>
    by_cases h : keep y x = true
    · simp [stableInsert, h, ih]
    · simp [stableInsert, h]

theorem pairwise_stableInsert {α : Type _} (keep : α → α → Bool)
    (htrans : ∀ a b c, keep a b = true → keep b c = true → keep a c = true)
    (htotal : ∀ a b, keep a b = false → keep b a = true)
    (x : α) (l : List α) (hl : l.Pairwise (fun a b => keep a b = true)) :
    (stableInsert keep x l).Pairwise (fun a b => keep a b = true) := by
  induction l with
  | nil => simp [stableInsert]
  | cons y ys ih =>
    rcases List.pairwise_cons.mp hl with ⟨hy, hys⟩
    by_cases h : keep y x = true
    · simp only [stableInsert, h, if_true]
      refine List.pairwise_cons.mpr ⟨?_, ih hys⟩
      intro b hb
      rcases (mem_stableInsert keep x b ys).mp hb with rfl | hbys
      · exact h
      · exact hy b hbys
    · simp only [stableInsert, h, if_false]
      refine List.pairwise_cons.mpr ⟨?_, hl⟩
      intro b hb
      have hxy : keep x y = true := htotal y x (by simpa using h)
      rcases List.mem_cons.mp hb with rfl | hbys
      · exact hxy
      · exact htrans x y b hxy (hy b hbys)

theorem pairwise_stableSortDesc {α : Type _} (keep : α → α → Bool)
    (htrans : ∀ a b c, keep a b = true → keep b c = true → keep a c = true)
    (htotal : ∀ a b, keep a b = false → keep b a = true)
    (l : List α) :
    (stableSortDesc keep l).Pairwise (fun a b => keep a b = true) := by
  have haux : ∀ (l2 acc : List α), acc.Pairwise (fun a b => keep a b = true) →
      (l2.foldl (fun acc x => stableInsert keep x acc) acc).Pairwise
        (fun a b => keep a b = true) := by
    intro l2
    induction l2 with
    | nil => intro acc h; exact h
    | cons x xs ih =>
      intro acc h
      exact ih _ (pairwise_stableInsert keep htrans htotal x acc h)
  exact haux l [] (by simp)

theorem mem_stableSortDesc {α : Type _} (keep : α → α → Bool) (l : List α) (a : α) :
    a ∈ stableSortDesc keep l ↔ a ∈ l := by
  have haux : ∀ (l2 acc : List α),
      (a ∈ l2.foldl (fun acc x => stableInsert keep x acc) acc ↔ a ∈ acc ∨ a ∈ l2) := by
    intro l2
    induction l2 with
    | nil => intro acc; simp
    | cons x xs ih =>
      intro acc
      rw [List.foldl_cons, ih, mem_stableInsert]
      simp
      tauto
  rw [stableSortDesc, haux]
  simp

theorem length_stableSortDesc {α : Type _} (keep : α → α → Bool) (l : List α) :
    (stableSortDesc keep l).length = l.length := by
  have haux : ∀ (l2 acc : List α),
      (l2.foldl (fun acc x => stableInsert keep x acc) acc).length = acc.length + l2.length := by
    intro l2
    induction l2 with
    | nil => intro acc; simp
    | cons x xs ih =>
      intro acc
      rw [List.foldl_cons, ih, length_stableInsert]
      simp
      omega
  rw [stableSortDesc, haux]
  simp

theorem filter_stableInsert_neg {α : Type _} (keep : α → α → Bool) (P : α → Bool)
    (x : α) (l : List α) (hx : P x = false) :
    (stableInsert keep x l).filter P = l.filter P := by
  induction l with
  | nil => simp [stableInsert, hx]
  | cons y ys ih =>
    by_cases h : keep y x = true
    · simp only [stableInsert, h, if_true, List.filter_cons, ih]
    · simp only [stableInsert, h, if_false, Bool.false_eq_true]
      simp [List.filter_cons, hx]

theorem filter_stableInsert_pos {α : Type _} (keep : α → α → Bool) (P : α → Bool)
    (hPP : ∀ a b, P a = true → P b = true → keep a b = true)
    (htrans : ∀ a b c, keep a b = true → keep b c = true → keep a c = true)
    (x : α) (l : List α) (hx : P x = true)
    (hl : l.Pairwise (fun a b => keep a b = true)) :
    (stableInsert keep x l).filter P = l.filter P ++ [x] := by
  induction l with
  | nil => simp [stableInsert, hx]
  | cons y ys ih =>
    rcases List.pairwise_cons.mp hl with ⟨hy, hys⟩
    by_cases h : keep y x = true
    · simp only [stableInsert, h, if_true, List.filter_cons, ih hys]
      by_cases hyP : P y = true
      · simp [hyP]
      · simp [hyP]
    · have hyP : P y = false := by
        cases hP : P y with
        | false => rfl
        | true => exact absurd (hPP y x hP hx) (by simpa using h)
      have hfil : ys.filter P = [] := by
        rw [List.filter_eq_nil_iff]
        intro b hb
        cases hPb : P b with
        | false => simp
        | true =>
          have hbx : keep b x = true := hPP b x hPb hx
          have hyb : keep y b = true := hy b hb
          exact absurd (htrans y b x hyb hbx) (by simpa using h)
      simp [stableInsert, h, List.filter_cons, hyP, hfil, hx]

theorem filter_stableSortDesc {α : Type _} (keep : α → α → Bool) (P : α → Bool)
    (hPP : ∀ a b, P a = true → P b = true → keep a b = true)
    (htrans : ∀ a b c, keep a b = true → keep b c = true → keep a c = true)
    (htotal : ∀ a b, keep a b = false → keep b a = true)
    (l : List α) :
    (stableSortDesc keep l).filter P = l.filter P := by
  have haux : ∀ (l2 acc : List α), acc.Pairwise (fun a b => keep a b = true) →
      (l2.foldl (fun acc x => stableInsert keep x acc) acc).filter P
        = acc.filter P ++ l2.filter P := by
    intro l2
    induction l2 with
    | nil => intro acc _; simp
    | cons x xs ih =>
      intro acc hacc
      rw [List.foldl_cons, ih _ (pairwise_stableInsert keep htrans htotal x acc hacc)]
      by_cases hx : P x = true
      · rw [filter_stableInsert_pos keep P hPP htrans x acc hx hacc]
        simp [List.filter_cons, hx]
      · have hx2 : P x = false := by simpa using hx
        rw [filter_stableInsert_neg keep P x acc hx2]
        simp [List.filter_cons, hx2]
  rw [stableSortDesc, haux l [] (by simp)]
  simp

theorem lookupEngs_appendEng (l : List (String × List Int)) (key target : String) (v : Int) :
    lookupEngs (appendEng key v l) target =
      if key = target then lookupEngs l target ++ [v] else lookupEngs l target := by
  induction l with
  | nil =>
    by_cases h : key = target <;> simp [appendEng, lookupEngs, h]
  | cons kv rest ih =>
    obtain ⟨k, vs⟩ := kv
    by_cases hk : k = key
    · subst hk
      by_cases ht : k = target <;> simp [appendEng, lookupEngs, ht]
    · by_cases ht : k = target
      · subst ht
        have hne : ¬ key = k := fun he => hk he.symm
        simp [appendEng, lookupEngs, hk, hne]
      · simp [appendEng, lookupEngs, hk, ht, ih]

theorem keysList_appendEng (key : String) (v : Int) (l : List (String × List Int)) :
    keysList (appendEng key v l) = keysList l ∨
      keysList (appendEng key v l) = keysList l ++ [key] := by
  induction l with
  | nil => right; simp [appendEng, keysList]
  | cons kv rest ih =>
    obtain ⟨k, vs⟩ := kv
    by_cases hk : k = key
    · left; simp [appendEng, hk, keysList]
    · rcases ih with h | h
      · left; simp [appendEng, hk, keysList] at h ⊢; exact h
      · right; simp [appendEng, hk, keysList] at h ⊢; exact h

theorem nodup_keys_appendEng (key : String) (v : Int) (l : List (String × List Int))
    (h : (keysList l).Nodup) : (keysList (appendEng key v l)).Nodup := by
  induction l with
  | nil => simp [appendEng, keysList]
  | cons kv rest ih =>
    obtain ⟨k, vs⟩ := kv
    simp only [keysList, List.map_cons, List.nodup_cons] at h
    by_cases hk : k = key
    · simp only [appendEng, hk, if_true, keysList, List.map_cons, List.nodup_cons]
      subst hk
      exact ⟨h.1, h.2⟩
    · simp only [appendEng, hk, if_false, keysList, List.map_cons, List.nodup_cons]
      refine ⟨?_, ih h.2⟩
      rcases keysList_appendEng key v rest with he | he
      · rw [keysList] at he
        rw [he]
        exact h.1
      · rw [keysList] at he
        rw [he]
        simp only [List.mem_append, List.mem_singleton]
        rintro (hc | hc)
        · exact h.1 hc
        · exact hk hc

theorem mem_lookupEngs (l : List (String × List Int)) (h : (keysList l).Nodup)
    (k : String) (vs : List Int) (hm : (k, vs) ∈ l) : lookupEngs l k = vs := by
  induction l with
  | nil => simp at hm
  | cons kv rest ih =>
    obtain ⟨k1, v1⟩ := kv
    simp only [keysList, List.map_cons, List.nodup_cons] at h
    rcases List.mem_cons.mp hm with he | hmr
    · simp only [Prod.mk.injEq] at he
      obtain ⟨h1, h2⟩ := he
      subst h1
      subst h2
      simp [lookupEngs]
    · have hk : k1 ≠ k := by
        intro hc
        subst hc
        exact h.1 (List.mem_map_of_mem Prod.fst hmr)
      simp only [lookupEngs, hk, if_false]
      exact ih h.2 hmr

theorem foldl_preserve {α β : Type _} (P : β → Prop) (step : β → α → β)
    (hstep : ∀ b x, P b → P (step b x)) :
    ∀ (l : List α) (b : β), P b → P (l.foldl step b) := by
  intro l
  induction l with
  | nil => intro b h; exact h
  | cons x xs ih => intro b h; exact ih (step b x) (hstep b x h)

theorem lookupEngs_tagsFold (eng : Int) (hs : List String) :
    ∀ (acc : List (String × List Int)) (k : String),
      lookupEngs (hs.foldl (fun a h => appendEng h eng a) acc) k
        = lookupEngs acc k ++ List.replicate (hs.count k) eng := by
  induction hs with
  | nil => intro acc k; simp
  | cons h hs ih =>
    intro acc k
    rw [List.foldl_cons, ih, lookupEngs_appendEng]
    by_cases hk : h = k
    · subst hk
      rw [List.count_cons_self, if_pos rfl]
      simp [List.replicate_succ, List.append_assoc]
    · rw [if_neg hk, List.count_cons_of_ne (fun hc => hk hc.symm)]

theorem lookupEngs_hashtagFold (posts : List Post) :
    ∀ (acc : List (String × List Int)) (k : String),
      lookupEngs
        (posts.foldl
          (fun a p => p.hashtags.foldl (fun a2 h => appendEng h p.engagement a2) a) acc) k
        = lookupEngs acc k ++ tagEngs k posts := by
  induction posts with
  | nil => intro acc k; simp [tagEngs]
  | cons p ps ih =>
    intro acc k
    rw [List.foldl_cons, ih, lookupEngs_tagsFold]
    simp [tagEngs, List.append_assoc]

theorem lookupEngs_hashtag_engagement (posts : List Post) (k : String) :
    lookupEngs (hashtag_engagement posts) k = tagEngs k posts := by
  have h := lookupEngs_hashtagFold posts [] k
  simpa [hashtag_engagement, lookupEngs] using h

theorem nodup_keys_hashtag_engagement (posts : List Post) :
    (keysList (hashtag_engagement posts)).Nodup := by
  rw [hashtag_engagement]
  refine foldl_preserve (fun l => (keysList l).Nodup) _ ?_ posts [] (by simp [keysList])
  intro b p hb
  refine foldl_preserve (fun l => (keysList l).Nodup) _ ?_ p.hashtags b hb
  intro b2 h hb2
  exact nodup_keys_appendEng h p.engagement b2 hb2

theorem hashtag_engagement_values (posts : List Post) (kv : String × List Int)
    (hm : kv ∈ hashtag_engagement posts) : kv.2 = tagEngs kv.1 posts := by
  have h1 := mem_lookupEngs (hashtag_engagement posts) (nodup_keys_hashtag_engagement posts)
    kv.1 kv.2 (by simpa using hm)
  rw [← h1, lookupEngs_hashtag_engagement]

theorem appendEng_values_ne (key : String) (v : Int) (l : List (String × List Int))
    (h : ∀ kv ∈ l, kv.2 ≠ ([] : List Int)) :
    ∀ kv ∈ appendEng key v l, kv.2 ≠ ([] : List Int) := by
  induction l with
  | nil =>
    intro kv hkv
    simp only [appendEng, List.mem_singleton] at hkv
    subst hkv
    simp
  | cons kv1 rest ih =>
    obtain ⟨k1, v1⟩ := kv1
    intro kv hkv
    have hhead : ((k1, v1) : String × List Int).2 ≠ [] := h (k1, v1) (List.mem_cons_self _ _)
    have htail : ∀ kv2 ∈ rest, kv2.2 ≠ ([] : List Int) :=
      fun kv2 hm2 => h kv2 (List.mem_cons_of_mem _ hm2)
    by_cases hk : k1 = key
    · simp only [appendEng, hk, if_true] at hkv
      rcases List.mem_cons.mp hkv with rfl | hm2
      · simp
      · exact htail kv hm2
    · simp only [appendEng, hk, if_false] at hkv
      rcases List.mem_cons.mp hkv with rfl | hm2
      · exact hhead
      · exact ih htail kv hm2

theorem type_engagement_values_ne (posts : List Post) :
    ∀ kv ∈ type_engagement posts, kv.2 ≠ ([] : List Int) := by
  rw [type_engagement]
  refine foldl_preserve (fun (l : List (String × List Int)) => ∀ kv ∈ l, kv.2 ≠ ([] : List Int)) _ ?_ posts [] (by simp)
  intro b p hb
  exact appendEng_values_ne p.type p.engagement b hb

theorem hashtag_engagement_values_ne (posts : List Post) :
    ∀ kv ∈ hashtag_engagement posts, kv.2 ≠ ([] : List Int) := by
  rw [hashtag_engagement]
  refine foldl_preserve (fun (l : List (String × List Int)) => ∀ kv ∈ l, kv.2 ≠ ([] : List Int)) _ ?_ posts [] (by simp)
  intro b p hb
  refine foldl_preserve (fun (l : List (String × List Int)) => ∀ kv ∈ l, kv.2 ≠ ([] : List Int)) _ ?_ p.hashtags b hb
  intro b2 h hb2
  exact appendEng_values_ne h p.engagement b2 hb2

theorem foldl_overwrite (q : Msg → Bool) (f : Msg → String) :
    ∀ (msgs : List Msg) (acc : String),
      msgs.foldl (fun a m => if q m then f m else a) acc
        = (match (msgs.filter q).getLast? with
           | some m => f m
           | none => acc) := by
  intro msgs
  induction msgs with
  | nil => intro acc; rfl
  | cons m rest ih =>
    intro acc
    rw [List.foldl_cons, ih]
    by_cases h : q m = true
    · simp only [List.filter_cons, h, if_true, List.getLast?_cons]
      cases hl : (rest.filter q).getLast? with
      | none => simp [hl, h]
      | some m2 => simp [hl]
    · simp only [List.filter_cons, h]
      simp [h]

theorem finalRecLoop_eq_find (msgs : List Msg) :
    finalRecLoop msgs
      = (match msgs.find? (fun m => m.name == coordName && isTerminationMsg m.content) with
         | some m => m.content
         | none => "") := by
  induction msgs with
  | nil => rfl
  | cons m rest ih =>
    by_cases h : (m.name == coordName && isTerminationMsg m.content) = true
    · simp [finalRecLoop, h, List.find?_cons_of_pos]
    · simp only [finalRecLoop]
      rw [if_neg (by simpa using h), List.find?_cons_of_neg _ (by simpa using h), ih]

theorem isTerminationMsg_ne_empty (c : String) (h : isTerminationMsg c = true) : c ≠ "" := by
  intro he
  subst he
  exact absurd h (by decide)

theorem parseDates_length (l : List PostOut) (ds : List Nat) (h : parseDates l = some ds) :
    ds.length = l.length := by
  induction l generalizing ds with
  | nil =>
    simp only [parseDates, Option.some.injEq] at h
    subst h
    rfl
  | cons p rest ih =>
    simp only [parseDates] at h
    cases h1 : parseDate p.date_posted with
    | none => rw [h1] at h; simp at h
    | some d =>
      rw [h1] at h
      cases h2 : parseDates rest with
      | none => rw [h2] at h; simp at h
      | some ds2 =>
        rw [h2] at h
        simp only [Option.some.injEq] at h
        subst h
        simp [ih ds2 h2]

theorem natDescKeep_trans (a b c : Nat) (h1 : natDescKeep a b = true)
    (h2 : natDescKeep b c = true) : natDescKeep a c = true := by
  simp only [natDescKeep, decide_eq_true_eq] at h1 h2 ⊢
  omega

theorem natDescKeep_total (a b : Nat) (h : natDescKeep a b = false) : natDescKeep b a = true := by
  simp only [natDescKeep, decide_eq_false_iff_not, decide_eq_true_eq] at h ⊢
  omega

theorem dateKeep_trans (a b c : PostOut) (h1 : dateKeep a b = true) (h2 : dateKeep b c = true) :
    dateKeep a c = true := by
  simp only [dateKeep, Bool.not_eq_true'] at h1 h2 ⊢
  cases hac : lexLt a.date_posted.data c.date_posted.data with
  | false => rfl
  | true =>
    rcases lexLt_split _ b.date_posted.data _ hac with hx | hx
    · exact absurd hx (by simp [h1])
    · exact absurd hx (by simp [h2])

theorem dateKeep_total (y x : PostOut) (h : dateKeep y x = false) : dateKeep x y = true := by
  have h1 : lexLt y.date_posted.data x.date_posted.data = true := by
    cases hx : lexLt y.date_posted.data x.date_posted.data with
    | true => rfl
    | false => rw [dateKeep, hx] at h; exact absurd h (by decide)
  rw [dateKeep, lexLt_asymm _ _ h1]
  rfl

/-- C1 (amended): add_post performs no validation: for every input, empty
text or negative engagement included, the call succeeds, appends exactly one
new record holding the given fields to the external index, and the stored
count grows by exactly one. -/
theorem c1_add_never_rejects (embed : String → List Rat) (db : RAGDatabase) (p : Post) :
    get_post_count (add_post embed db p).2 = get_post_count db + 1 ∧
    ∃ r : StoredRecord, (add_post embed db p).2.records = db.records ++ [r] ∧
      r.document = p.caption ∧ r.meta_engagement = p.engagement ∧
      r.meta_type = p.type ∧ r.meta_date = p.date_posted := by
  constructor
  · simp [get_post_count, add_post]
  · exact ⟨_, rfl, rfl, rfl, rfl, rfl⟩

/-- C1 counterexample: an ingestion input with empty text and negative
engagement is not rejected by add_post: one record is stored in the index,
refuting that no record reaches it. -/
theorem c1_counterexample :
    get_post_count (add_post zeroEmbed emptyDb badPost).2 = 1 ∧
    (add_post zeroEmbed emptyDb badPost).2.records ≠ [] := by
  constructor
  · rfl
  · simp [add_post, emptyDb]

/-- C9: analysis() on the empty store returns the designated empty report
rather than raising, and the empty report arises exactly for the empty
store, so callers can tell no data apart from data. -/
theorem c9_empty_analysis :
    get_content_analysis [] = none ∧
    ∀ posts : List Post, get_content_analysis posts = none ↔ posts = [] := by
  constructor
  · rfl
  · intro posts
    constructor
    · intro h
      by_contra hne
      simp [get_content_analysis, hne] at h
    · intro h
      subst h
      rfl

/-- C10: no division in get_content_analysis has divisor zero: the empty
store returns before the mean-engagement division, every per-type engagement
list is nonempty by construction, and per-tag means are only taken for lists
of length at least 2. -/
theorem c10_no_zero_divisor (posts : List Post) : 0 ∉ analysisDivisors posts := by
  by_cases h : posts = []
  · simp [analysisDivisors, h]
  · intro hmem
    simp only [analysisDivisors, if_neg h, List.mem_cons, List.mem_append, List.mem_map,
      List.mem_filterMap] at hmem
    rcases hmem with h0 | hrest
    · exact h (List.length_eq_zero.mp h0.symm)
    · rcases hrest with hmap | hfm
      · obtain ⟨kv, hkv, hlen⟩ := hmap
        exact type_engagement_values_ne posts kv hkv (List.length_eq_zero.mp hlen)
      · obtain ⟨kv, hkv, hif⟩ := hfm
        by_cases h2 : 2 ≤ kv.2.length
        · rw [if_pos h2] at hif
          simp only [Option.some.injEq] at hif
          omega
        · rw [if_neg h2] at hif
          simp at hif

/-- C8: each per-specialist field equals the last turn of that specialist
whose content is strictly longer than 100 characters, passed through the
truncation that cuts to 500 characters and appends an ellipsis exactly when
the content exceeds 500; the field is empty when no turn qualifies. -/
theorem c8_specialist_extraction (msgs : List Msg) :
    (story_rec msgs =
      (match (msgs.filter
          (fun m => m.name == "story_specialist" && decide (100 < m.content.length))).getLast? with
       | some m => truncRec m.content
       | none => "")) ∧
    (feed_rec msgs =
      (match (msgs.filter
          (fun m => m.name == "feed_specialist" && decide (100 < m.content.length))).getLast? with
       | some m => truncRec m.content
       | none => "")) ∧
    (∀ s : String, 500 < s.length →
      truncRec s = (⟨s.data.take 500⟩ : String) ++ "...") ∧
    (∀ s : String, ¬ 500 < s.length → truncRec s = s) := by
  refine ⟨?_, ?_, ?_, ?_⟩
  · exact foldl_overwrite _ _ msgs ""
  · exact foldl_overwrite _ _ msgs ""
  · intro s hs
    simp [truncRec, hs]
  · intro s hs
    simp [truncRec, hs]

/-- C3 (amended): the extractor scans the transcript in reverse and takes the
first coordinator turn whose text contains the termination marker matched
case-insensitively; the coordinated-strategy field is that text with the
exact uppercase occurrences of the marker removed and surrounding whitespace
trimmed (an occurrence matched only case-insensitively is not removed); when
no such turn exists the field is empty rather than an error. -/
theorem c3_strategy (msgs : List Msg) :
    coordinated_strategy msgs =
      (match msgs.reverse.find?
          (fun m => m.name == coordName && isTerminationMsg m.content) with
       | some m => trimStr ⟨removeAll terminationMarker.data m.content.data⟩
       | none => "") := by
  unfold coordinated_strategy final_recommendation
  rw [finalRecLoop_eq_find]
  cases h : msgs.reverse.find? (fun m => m.name == coordName && isTerminationMsg m.content) with
  | none => simp
  | some m =>
    have hq := List.find?_some h
    have hterm : isTerminationMsg m.content = true := by
      simp only [Bool.and_eq_true] at hq
      exact hq.2
    have hne : m.content ≠ "" := isTerminationMsg_ne_empty m.content hterm
    simp [hne, trimStr]

/-- C3 counterexample: a coordinator turn whose marker appears only in
lowercase is selected by the case-insensitive match, yet the claim-predicted
field value with the marker removed is not produced: the lowercase marker
text survives in the output. -/
theorem c3_counterexample :
    coordinated_strategy [lowercaseMarkerMsg] = "final recommendation: post a reel" ∧
    "final recommendation: post a reel" ≠ "post a reel" := by
  constructor
  · decide
  · decide

/-- C5: a successful add of a valid record increases count() by exactly one,
and the new record is read back by all() appended after the previous records
with every field intact: fresh id, caption, category, engagement and date
unchanged, and the hashtag list deserialized back to the original list in its
original order. -/
theorem c5_add_roundtrip (embed : String → List Rat) (db : RAGDatabase) (p : Post)
    (_htext : p.caption ≠ "") (_heng : 0 ≤ p.engagement) :
    get_post_count (add_post embed db p).2 = get_post_count db + 1 ∧
    get_all_posts (add_post embed db p).2 =
      get_all_posts db ++
        [⟨db.nextId, p.caption, p.type, p.engagement, some p.hashtags, p.date_posted⟩] := by
  constructor
  · simp [get_post_count, add_post]
  · simp [get_all_posts, add_post, recordToPost, jsonLoadsList_dumps]

/-- C5 witness: the round-trip theorem applied to a concrete valid post added
to the empty store. -/
theorem c5_add_roundtrip_witness :
    wellFormedPost.caption ≠ "" ∧ 0 ≤ wellFormedPost.engagement ∧
    (get_post_count (add_post zeroEmbed emptyDb wellFormedPost).2 = get_post_count emptyDb + 1 ∧
     get_all_posts (add_post zeroEmbed emptyDb wellFormedPost).2 =
       get_all_posts emptyDb ++
         [⟨emptyDb.nextId, wellFormedPost.caption, wellFormedPost.type,
           wellFormedPost.engagement, some wellFormedPost.hashtags,
           wellFormedPost.date_posted⟩]) :=
  ⟨by decide, by decide,
    c5_add_roundtrip zeroEmbed emptyDb wellFormedPost (by decide) (by decide)⟩

/-- C7: content_gaps on a nonempty list counts categories over the window of
the 7 most recent records; a category of the fixed full set is missing
exactly when absent from that window, and overused exactly when it occurs 3
or more times in it; the mix maps each window category to its occurrence
count; an empty list gives the explicit no-recent-posts marker. On four
records typed promotion, educational, promotion, promotion the mix is
educational 1 / promotion 3, missing is satisfying_video and behind_scenes,
and promotion is overused. -/
theorem c7_content_gaps :
    (∀ recent : List PostOut,
      (recent = [] → analyze_content_gaps recent = GapsResult.noRecent) ∧
      (recent ≠ [] → ∃ mix missing overused,
        analyze_content_gaps recent = GapsResult.report mix missing overused ∧
        (∀ t n, (t, n) ∈ mix → n = ((recent.take 7).map (fun p => p.type)).count t) ∧
        (∀ t, t ∈ missing ↔ t ∈ all_types ∧ ¬ t ∈ (recent.take 7).map (fun p => p.type)) ∧
        (∀ t, t ∈ overused ↔ t ∈ (recent.take 7).map (fun p => p.type) ∧
          3 ≤ ((recent.take 7).map (fun p => p.type)).count t))) ∧
    analyze_content_gaps gapPosts =
      GapsResult.report [("educational", 1), ("promotion", 3)]
        ["satisfying_video", "behind_scenes"] ["promotion"] := by
  constructor
  · intro recent
    constructor
    · intro h
      simp [analyze_content_gaps, h]
    · intro h
      refine ⟨((recent.take 7).map (fun p => p.type)).dedup.map
          (fun t => (t, ((recent.take 7).map (fun p => p.type)).count t)),
        all_types.filter (fun t => !(((recent.take 7).map (fun p => p.type)).contains t)),
        ((recent.take 7).map (fun p => p.type)).dedup.filter
          (fun t => 3 ≤ ((recent.take 7).map (fun p => p.type)).count t), ?_, ?_, ?_, ?_⟩
      · simp [analyze_content_gaps, h]
      · intro t n hmem
        simp only [List.mem_map] at hmem
        obtain ⟨t2, ht2, heq⟩ := hmem
        simp only [Prod.mk.injEq] at heq
        obtain ⟨h1, h2⟩ := heq
        subst h1
        exact h2.symm
      · intro t
        simp [List.mem_filter, List.elem_iff]
      · intro t
        simp [List.mem_filter, List.mem_dedup]
  · decide

/-- C6: recent(n) is sorted by posted date descending (no adjacent pair
increases), holds at most n records, retains the stored insertion order among
records of equal date (the sort is stable: filtering the sorted sequence to
one date gives the same subsequence as filtering the stored sequence), and on
a store holding dates 2024-01-01, 2024-01-05, 2024-01-03 recent(2) returns
the 01-05 record then the 01-03 record. -/
theorem c6_recent_sorted :
    (∀ (db : RAGDatabase) (n : Nat),
      (get_recent_posts db n).Pairwise
        (fun a b => lexLt a.date_posted.data b.date_posted.data = false) ∧
      (get_recent_posts db n).length ≤ n ∧
      (∀ d : String,
        (stableSortDesc dateKeep (get_all_posts db)).filter (fun q => q.date_posted == d)
          = (get_all_posts db).filter (fun q => q.date_posted == d))) ∧
    get_recent_posts recentDb 2 =
      [⟨1, "second", "t", 2, some [], "2024-01-05"⟩,
       ⟨2, "third", "t", 3, some [], "2024-01-03"⟩] := by
  constructor
  · intro db n
    refine ⟨?_, ?_, ?_⟩
    · have hp := pairwise_stableSortDesc dateKeep dateKeep_trans dateKeep_total (get_all_posts db)
      have hsub := hp.sublist (List.take_sublist n _)
      refine hsub.imp ?_
      intro a b hab
      simpa [dateKeep] using hab
    · exact List.length_take_le n _
    · intro d
      refine filter_stableSortDesc dateKeep _ ?_ dateKeep_trans dateKeep_total (get_all_posts db)
      intro a b ha hb
      have ha2 : a.date_posted = d := by simpa using ha
      have hb2 : b.date_posted = d := by simpa using hb
      simp [dateKeep, ha2, hb2, lexLt_irrefl]
  · decide

/-- C4: posting_rhythm on fewer than 2 records returns the explicit
insufficient-data marker; on 2 or more dated records it reports
days_since_last_post = today minus the newest date, average_gap = the mean of
the consecutive-pair gaps of the dates sorted descending (their sum over
count minus one), and status overdue exactly when days_since_last exceeds
1.5 times the average gap; on records dated 2024-01-10 and 2024-01-05
evaluated on 2024-01-20 it reports 10, 5 and overdue. -/
theorem c4_posting_rhythm :
    (∀ (today : Int) (recent : List PostOut), recent.length < 2 →
      analyze_posting_rhythm today recent = some RhythmResult.insufficient) ∧
    (∀ (today : Int) (recent : List PostOut) (dates : List Nat),
      2 ≤ recent.length → parseDates recent = some dates →
      ∃ (newest : Nat) (avg : Rat) (st : Bool),
        analyze_posting_rhythm today recent
          = some (RhythmResult.report (today - (newest : Int)) avg st) ∧
        newest ∈ dates ∧ (∀ x ∈ dates, x ≤ newest) ∧
        avg = ((List.zipWith (fun (a b : Nat) => (a : Int) - (b : Int))
            (stableSortDesc natDescKeep dates) (stableSortDesc natDescKeep dates).tail).sum : Rat)
          / ((dates.length - 1 : Nat) : Rat) ∧
        (st = true ↔ ((today - (newest : Int) : Int) : Rat) > avg * (3 / 2))) ∧
    analyze_posting_rhythm ((daysFromCivil 2024 1 20 : Nat) : Int) rhythmPosts
      = some (RhythmResult.report 10 5 true) := by
  refine ⟨?_, ?_, ?_⟩
  · intro today recent h
    simp [analyze_posting_rhythm, h]
  · intro today recent dates h2 hp
    have hlen : dates.length = recent.length := parseDates_length recent dates hp
    have hnot : ¬ recent.length < 2 := by omega
    have hslen : (stableSortDesc natDescKeep dates).length = dates.length :=
      length_stableSortDesc _ _
    cases hs : stableSortDesc natDescKeep dates with
    | nil =>
      rw [hs] at hslen
      simp at hslen
      omega
    | cons d0 restS =>
      have hpair := pairwise_stableSortDesc natDescKeep natDescKeep_trans natDescKeep_total dates
      rw [hs] at hpair
      have hrel := List.pairwise_cons.mp hpair
      set gaps := List.zipWith (fun (a b : Nat) => (a : Int) - (b : Int)) (d0 :: restS) restS
        with hgapsdef
      have hgapslen : gaps.length = dates.length - 1 := by
        rw [hgapsdef, List.length_zipWith]
        rw [hs] at hslen
        simp only [List.length_cons] at hslen ⊢
        omega
      have hgapsne : gaps ≠ [] := by
        intro hnil
        rw [hnil] at hgapslen
        simp at hgapslen
        omega
      refine ⟨d0, (gaps.sum : Rat) / (gaps.length : Rat),
        decide ((((today - (d0 : Int)) : Int) : Rat) >
          (gaps.sum : Rat) / (gaps.length : Rat) * (3 / 2)), ?_, ?_, ?_, ?_, ?_⟩
      · simp only [analyze_posting_rhythm, if_neg hnot, hp, hs, List.tail_cons, List.headD_cons]
        rw [← hgapsdef, if_neg hgapsne]
      · have hd : d0 ∈ stableSortDesc natDescKeep dates := by
          rw [hs]
          exact List.mem_cons_self _ _
        exact (mem_stableSortDesc natDescKeep dates d0).mp hd
      · intro x hx
        have hxs : x ∈ stableSortDesc natDescKeep dates :=
          (mem_stableSortDesc natDescKeep dates x).mpr hx
        rw [hs] at hxs
        rcases List.mem_cons.mp hxs with rfl | hxr
        · exact le_refl x
        · have hx2 := hrel.1 x hxr
          simp only [natDescKeep, decide_eq_true_eq] at hx2
          exact hx2
      · rw [List.tail_cons, ← hgapsdef, hgapslen]
      · constructor
        · intro hst
          exact of_decide_eq_true hst
        · intro hgt
          exact decide_eq_true hgt
  · have hp1 : parseDates rhythmPosts = some [739200, 739195] := by decide
    have ht : (daysFromCivil 2024 1 20 : Nat) = 739210 := by decide
    have hsort : stableSortDesc natDescKeep [739200, 739195] = [739200, 739195] := by decide
    have hlen2 : ¬ rhythmPosts.length < 2 := by decide
    simp only [analyze_posting_rhythm, if_neg hlen2, hp1, hsort, ht, List.tail_cons,
      List.headD_cons]
    norm_num

/-- C2 (amended): best_performing_hashtags contains only tags with at least 2
tag occurrences across the stored records (a tag listed twice on a single
record counts twice, as the source counts one engagement entry per
occurrence), each mapped to the mean engagement over its occurrence list; a
tag occurring exactly once is excluded even when its engagement is the
global maximum. -/
theorem c2_best_tags_occurrences (posts : List Post) (a : Analysis) (tag : String) (v : Rat)
    (ha : get_content_analysis posts = some a)
    (hmem : (tag, v) ∈ a.best_performing_hashtags) :
    2 ≤ (tagEngs tag posts).length ∧ v = meanEng (tagEngs tag posts) := by
  have hposts : posts ≠ [] := by
    intro h
    rw [h] at ha
    simp [get_content_analysis] at ha
  have hbest : a.best_performing_hashtags =
      (stableSortDesc ratKeep ((hashtag_engagement posts).filterMap
        (fun kv => if 2 ≤ kv.2.length then some (kv.1, meanEng kv.2) else none))).take 10 := by
    simp only [get_content_analysis, if_neg hposts, Option.some.injEq] at ha
    rw [← ha]
  rw [hbest] at hmem
  have hmem2 := List.take_subset _ _ hmem
  rw [mem_stableSortDesc, List.mem_filterMap] at hmem2
  obtain ⟨kv, hkv, hif⟩ := hmem2
  by_cases h2 : 2 ≤ kv.2.length
  · rw [if_pos h2] at hif
    simp only [Option.some.injEq, Prod.mk.injEq] at hif
    obtain ⟨h1, hv⟩ := hif
    have hvals := hashtag_engagement_values posts kv hkv
    constructor
    · rw [← h1, ← hvals]
      exact h2
    · rw [← h1, ← hvals]
      exact hv.symm
  · rw [if_neg h2] at hif
    exact absurd hif (by simp)

theorem specExampleAnalysis_eq :
    get_content_analysis specExamplePosts = some specExampleAnalysis := by
  have h2 : type_engagement specExamplePosts = [("t", [9999, 100, 200])] := by decide
  have h4 : hashtag_engagement specExamplePosts =
      [("#rare", [9999]), ("#common", [100, 200])] := by decide
  have h1 : type_counts specExamplePosts = [("t", 3)] := by decide
  have h3 : hashtag_counts specExamplePosts = [("#rare", 1), ("#common", 2)] := by decide
  have h5 : specExamplePosts.foldl (fun t p => t + p.engagement) 0 = (10299 : Int) := by decide
  have h6 : stableSortDesc natKeep [("#rare", 1), ("#common", 2)]
      = [("#common", 2), ("#rare", 1)] := by decide
  have h7 : specExamplePosts ≠ [] := by decide
  simp only [get_content_analysis, if_neg h7, h1, h2, h3, h4, h5, h6, Option.some.injEq]
  norm_num [specExampleAnalysis, meanEng, stableSortDesc, stableInsert, Analysis.mk.injEq,
    List.filterMap_cons, specExamplePosts]

/-- C2 witness: the amended theorem applied to the spec example store: one
record tagged #rare with engagement 9999, two records tagged #common with
engagements 100 and 200; best_performing_hashtags is exactly #common at mean
150 (so #rare, globally maximal but occurring once, is absent). -/
theorem c2_best_tags_occurrences_witness :
    ∃ a : Analysis, get_content_analysis specExamplePosts = some a ∧
      a.best_performing_hashtags = [("#common", (150 : Rat))] ∧
      ("#common", (150 : Rat)) ∈ a.best_performing_hashtags ∧
      2 ≤ (tagEngs "#common" specExamplePosts).length ∧
      (150 : Rat) = meanEng (tagEngs "#common" specExamplePosts) := by
  refine ⟨specExampleAnalysis, specExampleAnalysis_eq, rfl, by simp [specExampleAnalysis], ?_, ?_⟩
  · exact (c2_best_tags_occurrences specExamplePosts specExampleAnalysis "#common" 150
      specExampleAnalysis_eq (by simp [specExampleAnalysis])).1
  · exact (c2_best_tags_occurrences specExamplePosts specExampleAnalysis "#common" 150
      specExampleAnalysis_eq (by simp [specExampleAnalysis])).2

/-- C2 counterexample: a store holding exactly one record that lists #rare
twice: #rare appears on only one record, yet best_performing_hashtags
contains it (at mean 9999), refuting the claim that the mapping contains only
tags appearing on at least 2 records. -/
theorem c2_counterexample :
    (get_content_analysis dupTagPosts).map Analysis.best_performing_hashtags
      = some [("#rare", (9999 : Rat))] ∧
    dupTagPosts.length = 1 ∧
    (dupTagPosts.filter (fun p => p.hashtags.contains "#rare")).length = 1 := by
  refine ⟨?_, by decide, by decide⟩
  have h4 : hashtag_engagement dupTagPosts = [("#rare", [9999, 9999])] := by decide
  have h7 : dupTagPosts ≠ [] := by decide
  simp only [get_content_analysis, if_neg h7, h4, Option.map_some]
  norm_num [meanEng, stableSortDesc, stableInsert, List.filterMap_cons]
